import Mathlib

/-!
Verification development for the sqlite-d1-sync core.

The definitions below are a shallow embedding of the Python source under
`src/d1_sync/`: scalar values become an inductive type, the chunker's string
building is reproduced character for character, and the stateful parts
(engine statistics, state-file persistence, the HTTP retry loop, Kahn's
topological sort) become explicit state-passing functions.  Machine strings
are Lean `String`s (byte sizes through UTF-8 sizes of chars, matching
`len(s.encode("utf-8"))` in Python for valid unicode text).
-/

namespace D1Sync

/-- Character 39, the single-quote character, used when building SQL text. -/
def quoteChar : Char := Char.ofNat 39

/-- Character 0, the NUL character removed by the escaper. -/
def nulChar : Char := Char.ofNat 0

/-- Single-quote as a one-character string. -/
def sqStr : String := String.singleton quoteChar

/-- Model of a Python float as it matters to `escape_value`: the code branches
on NaN (`value != value`), on `±inf`, and otherwise uses `str(value)`, whose
output for a finite float is its decimal form, carried here as the payload of
`finite`. -/
inductive PyFloat where
  | nan
  | posInf
  | negInf
  | finite (decimal : String)
  deriving DecidableEq, Repr

/-- Scalar cell values handled by the chunker and the integrity checker
(`None`, `bool`, `int`, `float`, `str`, `bytes`).  Python dispatches with
`isinstance`, checking `bool` before `int`; the constructors are disjoint so
the dispatch order is captured by the match. -/
inductive Value where
  | null
  | boolean (b : Bool)
  | int (i : Int)
  | float (f : PyFloat)
  | text (s : String)
  | blob (bytes : List Nat)
  deriving DecidableEq, Repr

/-- Lowercase hexadecimal digit for a value below 16. -/
def hexDigitChar (n : Nat) : Char :=
  if n < 10 then Char.ofNat (48 + n) else Char.ofNat (87 + n)

/-- Two lowercase hex digits of one byte, as in Python `bytes.hex()`. -/
def byteHex (b : Nat) : String :=
  String.mk [hexDigitChar (b / 16 % 16), hexDigitChar (b % 16)]

/-- Lowercase hex of a byte string, as in Python `bytes.hex()`. -/
def bytesHex (bs : List Nat) : String :=
  String.join (bs.map byteHex)

/-- Replacement of every occurrence of the character `c` by the string `r`,
over a character list.  Python `str.replace(pat, r)` coincides with this
character-wise map whenever `pat` is a single character. -/
def replaceCharList (c : Char) (r : List Char) : List Char → List Char
  | [] => []
  | a :: rest => (if a = c then r else [a]) ++ replaceCharList c r rest

/-- Python `s.replace(c, r)` for a one-character pattern `c`. -/
def replaceCharWith (c : Char) (r s : String) : String :=
  String.mk (replaceCharList c r.toList s.toList)

/-- Embedding of `SQLChunker.escape_value` (src/d1_sync/core/chunker.py,
lines 60-102): `None → NULL`; `bool → 1/0`; ints and finite floats via
`str(value)` with NaN and infinities mapped to `NULL`; `bytes` to
`X'<hex>'`; any other value via `str(value)` with single quotes doubled and
then NUL bytes removed, wrapped in single quotes. -/
def escape_value (v : Value) : String :=
  match v with
  | .null => "NULL"
  | .boolean b => if b then "1" else "0"
  | .int i => toString i
  | .float .nan => "NULL"
  | .float .posInf => "NULL"
  | .float .negInf => "NULL"
  | .float (.finite decimal) => decimal
  | .blob bs => "X" ++ sqStr ++ bytesHex bs ++ sqStr
  | .text s =>
      let escaped := replaceCharWith quoteChar (sqStr ++ sqStr) s
      let escaped := replaceCharWith nulChar "" escaped
      sqStr ++ escaped ++ sqStr

/-- Byte length of the UTF-8 encoding of a string, `len(s.encode("utf-8"))`. -/
def utf8Len (s : String) : Nat :=
  (s.toList.map Char.utf8Size).sum

/-- Python `sep.join(parts)`. -/
def joinSep (sep : String) : List String → String
  | [] => ""
  | [x] => x
  | x :: y :: rest => x ++ sep ++ joinSep sep (y :: rest)

/-- One row serialized as a parenthesised value tuple
(`SQLChunker._format_row`). -/
def format_row (row : List Value) : String :=
  "(" ++ joinSep ", " (row.map escape_value) ++ ")"

/-- The INSERT verb chosen from the `replace` flag. -/
def verbStr (replace : Bool) : String :=
  if replace then "INSERT OR REPLACE" else "INSERT OR IGNORE"

/-- The double-quoted, comma-separated column list. -/
def colStr (columns : List String) : String :=
  joinSep ", " (columns.map (fun c => "\"" ++ c ++ "\""))

/-- Embedding of `SQLChunker.build_insert_statement` (chunker.py 123-153). -/
def build_insert_statement (table : String) (columns : List String)
    (rows : List (List Value)) (replace : Bool) : String :=
  if rows.isEmpty then ""
  else
    verbStr replace ++ " INTO \"" ++ table ++ "\" (" ++ colStr columns
      ++ ") VALUES\n" ++ joinSep ",\n" (rows.map format_row) ++ ";"

/-- Byte size of the empty statement skeleton, the `base_size` of
`SQLChunker.chunk_rows` (chunker.py 184-186). -/
def baseSize (table : String) (columns : List String) (replace : Bool) : Nat :=
  utf8Len (verbStr replace ++ " INTO \"" ++ table ++ "\" (" ++ colStr columns
    ++ ") VALUES\n;")

/-- A chunk of INSERT statements ready for execution (`InsertChunk`,
chunker.py 16-25). -/
structure InsertChunk where
  table : String
  sql : String
  row_count : Nat
  byte_size : Nat
  start_offset : Nat
  end_offset : Nat
  deriving DecidableEq, Repr

/-- Construction of one emitted chunk: the sql text is built from the
accumulated rows and `byte_size` is its UTF-8 byte length, exactly as at the
two `yield InsertChunk(...)` sites (chunker.py 203-213 and 225-233). -/
def mkChunk (table : String) (columns : List String) (replace : Bool)
    (rows : List (List Value)) (startOff endOff : Nat) : InsertChunk :=
  let sql := build_insert_statement table columns rows replace
  { table := table
    sql := sql
    row_count := rows.length
    byte_size := utf8Len sql
    start_offset := startOff
    end_offset := endOff }

/-- The accumulation loop of `SQLChunker.chunk_rows` (chunker.py 192-233).
Arguments mirror the Python loop state: `rest` is the unread remainder of
`rows`, `i` the index of its head in the original list, `cur` is
`current_rows`, `curSize` is `current_size` and `cs` is `chunk_start`;
`s` is `start_offset` and `n` the original `len(rows)` (the final chunk's
`end_offset` is computed from it, as in line 232). -/
def chunkRowsAux (mx base : Nat) (table : String) (columns : List String)
    (replace : Bool) (s n : Nat) :
    List (List Value) → Nat → List (List Value) → Nat → Nat → List InsertChunk
  | [], _, cur, _, cs =>
      if cur.isEmpty then []
      else [mkChunk table columns replace cur cs (s + n - 1)]
  | r :: rest, i, cur, curSize, cs =>
      if cur.isEmpty = false ∧ mx < curSize
          + (utf8Len (format_row r) + (if cur.isEmpty then 0 else 2)) then
        mkChunk table columns replace cur cs (cs + cur.length - 1) ::
          chunkRowsAux mx base table columns replace s n rest (i + 1) [r]
            (base + utf8Len (format_row r)) (s + i)
      else
        chunkRowsAux mx base table columns replace s n rest (i + 1)
          (cur ++ [r])
          (curSize + (utf8Len (format_row r) + (if cur.isEmpty then 0 else 2)))
          cs

/-- Embedding of `SQLChunker.chunk_rows` (chunker.py 155-233).  `mx` is
`self.max_size = int(limits.max_sql_length_bytes * limits.batch_safety_margin)`
computed in `__init__` (chunker.py 48-58). -/
def chunk_rows (mx : Nat) (table : String) (columns : List String)
    (rows : List (List Value)) (replace : Bool) (startOffset : Nat) :
    List InsertChunk :=
  if rows.isEmpty then []
  else
    chunkRowsAux mx (baseSize table columns replace) table columns replace
      startOffset rows.length rows 0 [] (baseSize table columns replace)
      startOffset

/-- Modelled from the specification text, §4.2 value serialization rules, to
be compared with the source-derived `escape_value`: null becomes `NULL`,
booleans `1`/`0`, integers and finite floats their decimal form with NaN and
infinities becoming `NULL`, blobs `X` with lowercase hex between single
quotes, and text is wrapped in single quotes with inner single quotes
doubled and embedded NUL bytes removed. -/
def specEscapeTextChar (a : Char) : List Char :=
  if a = quoteChar then [quoteChar, quoteChar]
  else if a = nulChar then []
  else [a]

/-- The spec-side escaper (see `specEscapeTextChar` for the text rule). -/
def escape_value_spec (v : Value) : String :=
  match v with
  | .null => "NULL"
  | .boolean b => if b then "1" else "0"
  | .int i => toString i
  | .float .nan => "NULL"
  | .float .posInf => "NULL"
  | .float .negInf => "NULL"
  | .float (.finite decimal) => decimal
  | .blob bs => "X" ++ sqStr ++ bytesHex bs ++ sqStr
  | .text s =>
      sqStr ++ String.mk ((s.toList.map specEscapeTextChar).flatten) ++ sqStr

/-- Contiguity of a chunk list: the first chunk starts at `start`, every
following chunk starts one past the previous chunk's `end_offset`, and the
last chunk ends at `endv`. -/
def IsChain : Nat → Nat → List InsertChunk → Prop
  | _, _, [] => False
  | start, endv, [c] => c.start_offset = start ∧ c.end_offset = endv
  | start, endv, c :: c₂ :: rest =>
      c.start_offset = start ∧ IsChain (c.end_offset + 1) endv (c₂ :: rest)

/-- Total number of rows over a chunk list. -/
def sumRowCounts (l : List InsertChunk) : Nat :=
  (l.map InsertChunk.row_count).sum

/-- Outcome of one chunk dispatch inside `SyncEngine.push` (engine.py
207-231): the chunk's row count, and whether `d1.execute` reported success
(an exception or a failure result both count the chunk's rows as failed). -/
structure ChunkOutcome where
  rowCount : Nat
  success : Bool
  deriving DecidableEq, Repr

/-- Rows counted as failed while processing one batch, the amount added to
`table_rows_failed` by the chunk loop (engine.py 216 and 227). -/
def batchFailedRows (b : List ChunkOutcome) : Nat :=
  (b.map (fun c => if c.success then 0 else c.rowCount)).sum

/-- The per-table batch loop's effect on `stats.rows_failed` (engine.py
192-250): `table_rows_failed` accumulates across the table's batches, and
after each batch `stats.rows_failed` is assigned (not added)
`table_rows_failed` (line 244).  A table with no batches leaves
`stats.rows_failed` untouched. -/
def tableLoopRowsFailed :
    List (List ChunkOutcome) → Nat → Nat → Nat
  | [], _tableFailed, statsFailed => statsFailed
  | b :: bs, tableFailed, _statsFailed =>
      tableLoopRowsFailed bs (tableFailed + batchFailedRows b)
        (tableFailed + batchFailedRows b)

/-- Value of `stats.rows_failed` after the whole table loop of
`SyncEngine.push`, starting from the `SyncStats` default 0. -/
def pushRowsFailedStat : List (List (List ChunkOutcome)) → Nat → Nat
  | [], statsFailed => statsFailed
  | t :: ts, statsFailed => pushRowsFailedStat ts (tableLoopRowsFailed t 0 statsFailed)

/-- The overall status passed to `mark_sync_complete` at the end of `push`
(engine.py 263-265): `completed` iff `stats.rows_failed == 0`.  Verification
mismatches found by `_verify_sync` (engine.py 396-412) are only appended to
`stats.errors`, so their count — the second argument — does not enter the
decision, exactly as in the code. -/
def pushFinalStatus (tables : List (List (List ChunkOutcome)))
    (_verificationMismatches : Nat) : String :=
  if pushRowsFailedStat tables 0 = 0 then "completed" else "failed"

/-- Total rows failed over the entire run, over every table and batch: the
quantity the spec's completion rule refers to. -/
def totalRowsFailed (tables : List (List (List ChunkOutcome))) : Nat :=
  (tables.map (fun t => (t.map batchFailedRows).sum)).sum

/-- One HTTP attempt's result as seen by `D1Client._request` (d1_client.py
188-245): a 429 with an optional Retry-After header, a transport-level
exception, or any response that reaches `response.json()` — the latter ends
the retry loop, whether the parsed body is returned or raises a body-level
error. -/
inductive HttpResp where
  | status429 (retryAfter : Option Nat)
  | transportErr
  | parsed
  deriving DecidableEq, Repr

/-- Result of the retry loop: how many HTTP attempts were made, the sleeps
performed (in seconds, in order), and how the loop ended. -/
inductive ReqOutcome where
  | responded (attempts : Nat) (sleeps : List Nat)
  | rateLimited (retryAfter : Nat) (attempts : Nat) (sleeps : List Nat)
  | transportFailed (attempts : Nat) (sleeps : List Nat)
  | maxRetriesExceeded (attempts : Nat) (sleeps : List Nat)
  deriving DecidableEq, Repr

/-- The `for attempt in range(max_retries)` loop of `D1Client._request`
(d1_client.py 206-245), over an abstract server giving the response to each
attempt.  On 429 the code reads Retry-After with default 60, sleeps and
retries unless this was the last attempt, in which case it raises
`D1RateLimitError(retry_after)`; on a transport error it sleeps
`retry_delay × (attempt + 1)` seconds with `retry_delay = 1.0`; `rem` counts
the attempts the `range` still allows, so the fall-through
`D1Error("Max retries exceeded")` after the loop is the `rem = 0` case. -/
def reqLoop (responses : Nat → HttpResp) (maxRetries : Nat) :
    Nat → Nat → List Nat → ReqOutcome
  | 0, attempt, sleeps => .maxRetriesExceeded attempt sleeps
  | rem + 1, attempt, sleeps =>
      match responses attempt with
      | .status429 ra =>
          if attempt < maxRetries - 1 then
            reqLoop responses maxRetries rem (attempt + 1)
              (sleeps ++ [ra.getD 60])
          else .rateLimited (ra.getD 60) (attempt + 1) sleeps
      | .transportErr =>
          if attempt < maxRetries - 1 then
            reqLoop responses maxRetries rem (attempt + 1)
              (sleeps ++ [attempt + 1])
          else .transportFailed (attempt + 1) sleeps
      | .parsed => .responded (attempt + 1) sleeps

/-- Embedding of `D1Client._request` with its `max_retries = 3`
(d1_client.py 203). -/
def d1Request (responses : Nat → HttpResp) : ReqOutcome :=
  reqLoop responses 3 3 0 []

/-- Persisted sync-state record, restricted to the fields that
`StateManager.get_or_create_state` and `StateManager.save` consult
(state.py 47-61). -/
structure FailedRowRec where
  table : String
  row_offset : Nat
  error : String
  deriving DecidableEq, Repr

/-- Persisted sync-state record (state.py 47-61), with the fields the
claims touch; remaining fields do not affect the embedded operations. -/
structure SyncStateRec where
  operation : String
  source : String
  destination : String
  status : String
  settings_hash : String
  updated_at : String
  failed_rows : List FailedRowRec
  deriving DecidableEq, Repr

/-- Result of `get_or_create_state`: resume the loaded record, or create a
fresh one from the arguments. -/
inductive GetOrCreate where
  | resume (st : SyncStateRec)
  | fresh
  deriving DecidableEq, Repr

/-- Embedding of `StateManager.get_or_create_state` (state.py 183-234);
`existing` is what `load()` produced.  The settings check mirrors
`if settings_hash and existing.settings_hash != settings_hash` — Python
truthiness makes an empty supplied hash skip the comparison. -/
def get_or_create_state (existing : Option SyncStateRec)
    (operation source destination settings_hash : String) : GetOrCreate :=
  match existing with
  | some ex =>
      if ex.operation = operation ∧ ex.source = source
          ∧ ex.destination = destination ∧ ex.status = "in_progress" then
        if settings_hash ≠ "" ∧ ex.settings_hash ≠ settings_hash then .fresh
        else .resume ex
      else .fresh
  | none => .fresh

/-- Discriminator for the resume case. -/
def isResume : GetOrCreate → Bool
  | .resume _ => true
  | .fresh => false

/-- Character 92, backslash. -/
def backslashChar : Char := Char.ofNat 92

/-- Character 34, double quote. -/
def dquoteChar : Char := Char.ofNat 34

/-- One byte of a Python `bytes` repr, given the chosen delimiter: backslash
and the delimiter are escaped, tab, newline and carriage return become their
two-character escapes, other printable ASCII stands for itself, and
everything else becomes a lowercase hex escape. -/
def pyByteReprChar (delim : Char) (b : Nat) : List Char :=
  if b = 92 then [backslashChar, backslashChar]
  else if Char.ofNat b = delim ∧ b < 128 then [backslashChar, delim]
  else if b = 9 then [backslashChar, Char.ofNat 116]
  else if b = 10 then [backslashChar, Char.ofNat 110]
  else if b = 13 then [backslashChar, Char.ofNat 114]
  else if 32 ≤ b ∧ b < 127 then [Char.ofNat b]
  else backslashChar :: Char.ofNat 120 :: (byteHex b).toList

/-- Python `str(bytes)`, i.e. the bytes repr `b'...'`: a double-quote
delimiter is chosen when the bytes contain a single quote but no double
quote, else single quotes. -/
def pyBytesRepr (bs : List Nat) : String :=
  if bs.contains 39 ∧ ¬bs.contains 34 then
    "b" ++ String.singleton dquoteChar
      ++ String.mk ((bs.map (pyByteReprChar dquoteChar)).flatten)
      ++ String.singleton dquoteChar
  else
    "b" ++ sqStr ++ String.mk ((bs.map (pyByteReprChar quoteChar)).flatten)
      ++ sqStr

/-- Python `str(value)` for the scalar domain: `None`/`True`/`False`,
decimal integers, float reprs (`nan`, `inf`, `-inf`, or the decimal form),
the text itself, and the bytes repr. -/
def pyStr (v : Value) : String :=
  match v with
  | .null => "None"
  | .boolean b => if b then "True" else "False"
  | .int i => toString i
  | .float .nan => "nan"
  | .float .posInf => "inf"
  | .float .negInf => "-inf"
  | .float (.finite decimal) => decimal
  | .text s => s
  | .blob bs => pyBytesRepr bs

/-- Per-cell encoding used by `SQLiteConnector._calculate_batch_checksum`
(sqlite.py 388): `str(v) if v is not None else ""`. -/
def checksumCellStr (v : Value) : String :=
  match v with
  | .null => ""
  | v => pyStr v

/-- A hashing call, abstracted to what determines its digest: which
algorithm was instantiated and the exact sequence of strings fed to
`hasher.update` (each encoded to UTF-8 bytes). -/
structure HashCall where
  algorithm : String
  updates : List String
  deriving DecidableEq, Repr

/-- Embedding of `SQLiteConnector._calculate_batch_checksum` (sqlite.py
382-390): `hashlib.md5()` unconditionally, then per row one update with
`"|".join(str(v) if v is not None else "" for v in row)`.  The configured
checksum algorithm (`settings.sync.checksum_algorithm`) is reachable from
the connector's `self.settings` but never consulted, hence the ignored first
parameter. -/
def calculate_batch_checksum (_configuredAlgorithm : String)
    (rows : List (List Value)) : HashCall :=
  { algorithm := "md5"
    updates := rows.map (fun row => joinSep "|" (row.map checksumCellStr)) }

/-- The canonical cell encoding of `IntegrityChecker.row_checksum`
(integrity.py 78-92), which §4.6 of the spec describes: null as backslash-N,
bytes as lowercase hex, booleans as 1/0, anything else via `str`. -/
def canonicalCell (v : Value) : String :=
  match v with
  | .null => "\\N"
  | .blob bs => bytesHex bs
  | .boolean b => if b then "1" else "0"
  | v => pyStr v

/-- The canonical row string of `IntegrityChecker.row_checksum`
(integrity.py 92): canonical cells joined by the field separator. -/
def row_checksum_input (values : List Value) : String :=
  joinSep "|" (values.map canonicalCell)

/-- Cells on which Python `str` and the canonical §4.6 encoding coincide:
text, integers and finite floats. -/
def strLikeCell (v : Value) : Bool :=
  match v with
  | .text _ => true
  | .int _ => true
  | .float (.finite _) => true
  | _ => false

/-- Content written by a save, abstracted to the data that the (injective)
`to_dict`/`json.dumps` pipeline serializes. -/
inductive FileContent where
  | stateJson (doc : SyncStateRec)
  | failedRowsJson (rows : List FailedRowRec)
  deriving DecidableEq, Repr

/-- A file-system operation.  The `rename` constructor exists so that the
claimed write-to-sibling-temporary-then-rename discipline is expressible;
the code never performs one. -/
inductive FsOp where
  | write (path : String) (content : FileContent)
  | rename (src dst : String)
  deriving DecidableEq, Repr

/-- Embedding of `StateManager.save` (state.py 169-181) as its file-system
trace: nothing when no state is loaded; otherwise `updated_at` is refreshed
and the serialized state is written directly to the state file with
`write_text`, followed — when a failed-rows file is configured and there are
failed rows — by a direct `write_text` of that file. -/
def save_ops (stateFile : String) (failedRowsFile : Option String)
    (state : Option SyncStateRec) (now : String) : List FsOp :=
  match state with
  | none => []
  | some st =>
      FsOp.write stateFile (FileContent.stateJson { st with updated_at := now })
        :: (match failedRowsFile with
            | some f =>
                if st.failed_rows.isEmpty then []
                else [FsOp.write f (FileContent.failedRowsJson st.failed_rows)]
            | none => [])

/-- A concrete loaded state used by the persistence counterexample. -/
def sampleState : SyncStateRec :=
  ⟨"push", "a.db", "db@cloudflare", "in_progress", "abc", "t0", []⟩

/-- Insertion of a string into an ascending list. -/
def insertSorted (x : String) : List String → List String
  | [] => [x]
  | y :: ys => if x ≤ y then x :: y :: ys else y :: insertSorted x ys

/-- Ascending insertion sort on strings: Python `list.sort()` /
`sorted(...)` on the names involved (distinct in every use, so stability
does not matter). -/
def sortStrings : List String → List String
  | [] => []
  | x :: xs => insertSorted x (sortStrings xs)

/-- Python `set.add`: dependency sets are represented as duplicate-free
lists, so addition keeps the element out if already present. -/
def addDep (d : String) (ds : List String) : List String :=
  if d ∈ ds then ds else ds ++ [d]

/-- The dependency set parsed for one table (sqlite.py 214-226): of the FK
reference names in regex-match order, those naming a table of the schema
other than the table itself are collected into a set. -/
def buildDeps (names : List String) (own : String)
    (refs : List String) : List String :=
  refs.foldl (fun ds r => if r ∈ names ∧ r ≠ own then addDep r ds else ds) []

/-- The `dependencies` mapping of `_sort_tables_by_dependencies` (sqlite.py
213-226) in insertion order: each table name with its filtered dependency
set.  A table is given as its name together with the list of table names
matched by the `FOREIGN KEY … REFERENCES` regex over its CREATE TABLE text;
the regex extraction itself is the embedding boundary. -/
def buildDependencies (tables : List (String × List String)) :
    List (String × List String) :=
  tables.map (fun p => (p.1, buildDeps (tables.map Prod.fst) p.1 p.2))

/-- Name-keyed lookup in a dependency list (dict access). -/
def lookupDeps (deps : List (String × List String)) (nm : String) :
    List String :=
  match deps.find? (fun p => p.1 == nm) with
  | some p => p.2
  | none => []

/-- One pass over `remaining_tables` after popping `t` (sqlite.py 245-251):
entries containing `t` in their dependency set have it removed; entries
whose set thereby becomes empty move, in iteration order, to the ready list
and leave remaining. -/
def updateRemaining (t : String) :
    List (String × List String) → List (String × List String) × List String
  | [] => ([], [])
  | (nm, ds) :: rest =>
      let res := updateRemaining t rest
      if t ∈ ds then
        if ds.erase t = [] then (res.1, nm :: res.2)
        else ((nm, ds.erase t) :: res.1, res.2)
      else ((nm, ds) :: res.1, res.2)

set_option linter.unusedVariables false in
/-- The Kahn loop of `_sort_tables_by_dependencies` (sqlite.py 235-251):
while the ready list is nonempty, sort it, pop its least name, append the
name to the output unless already present, and update remaining; the result
is the output so far and the remaining entries.  Between iterations the
Python ready list is the sorted rest plus the new arrivals in order, which
is what the recursive call passes. -/
def kahnLoop (ready : List String) (remaining : List (String × List String))
    (out : List String) : List String × List (String × List String) :=
  match hs : sortStrings ready with
  | [] => (out, remaining)
  | t :: rest =>
      kahnLoop (rest ++ (updateRemaining t remaining).2)
        (updateRemaining t remaining).1
        (if t ∈ out then out else out ++ [t])
termination_by ready.length + remaining.length
decreasing_by
  have h1 : ∀ l : List String, (sortStrings l).length = l.length := by
    intro l
    induction l with
    | nil => rfl
    | cons x xs ih =>
      have hins : ∀ (z : String) (m : List String),
          (insertSorted z m).length = m.length + 1 := by
        intro z m
        induction m with
        | nil => rfl
        | cons y ys ih2 =>
          simp only [insertSorted]
          split <;> simp [ih2]
      simp [sortStrings, hins, ih]
  have h2 : ∀ (z : String) (rem : List (String × List String)),
      (updateRemaining z rem).1.length + (updateRemaining z rem).2.length
        = rem.length := by
    intro z rem
    induction rem with
    | nil => rfl
    | cons p rest2 ih =>
      obtain ⟨nm, ds⟩ := p
      simp only [updateRemaining]
      split
      · split
        · simp only [List.length_cons]
          omega
        · simp only [List.length_cons]
          omega
      · simp only [List.length_cons]
        omega
  have h1r := h1 ready
  rw [hs] at h1r
  have h2r := h2 t remaining
  simp only [List.length_append, List.length_cons] at *
  omega

/-- The residue append of `_sort_tables_by_dependencies` (sqlite.py
253-258): names offered in order, each appended unless already present. -/
def appendResidue (out : List String) : List String → List String
  | [] => out
  | nm :: rest => appendResidue (if nm ∈ out then out else out ++ [nm]) rest

/-- The initial ready list (sqlite.py 233): names whose dependency set is
empty, in insertion order. -/
def readyInit (tables : List (String × List String)) : List String :=
  ((buildDependencies tables).filter (fun p => p.2.isEmpty)).map Prod.fst

/-- Embedding of `SQLiteConnector._sort_tables_by_dependencies` (sqlite.py
198-260), as the list of table names it returns (`table_map` is name-keyed,
so returning names loses nothing): Kahn's algorithm from the parsed
dependency sets, then remaining names appended in sorted order, skipping
those already emitted. -/
def sort_tables_by_dependencies (tables : List (String × List String)) :
    List String :=
  appendResidue
    (kahnLoop (readyInit tables) (buildDependencies tables) []).1
    (sortStrings
      ((kahnLoop (readyInit tables) (buildDependencies tables) []).2.map
        Prod.fst))

/-- Topological consistency of an emitted order with respect to a dependency
function: every dependency of the element at position `i` already occurs
among the first `i` elements — referenced tables precede their
referencers. -/
def TopoOut (deps0 : String → List String) (out : List String) : Prop :=
  ∀ i, (h : i < out.length) → ∀ d ∈ deps0 (out.get ⟨i, h⟩), d ∈ out.take i

theorem replaceCharList_append (c : Char) (r : List Char) (l₁ l₂ : List Char) :
    replaceCharList c r (l₁ ++ l₂) =
      replaceCharList c r l₁ ++ replaceCharList c r l₂ := by
  induction l₁ with
  | nil => rfl
  | cons a l ih => simp [replaceCharList, ih]

theorem escape_text_chars (l : List Char) :
    replaceCharList nulChar []
        (replaceCharList quoteChar [quoteChar, quoteChar] l) =
      (l.map specEscapeTextChar).flatten := by
  have hqn : quoteChar ≠ nulChar := by decide
  induction l with
  | nil => rfl
  | cons a l ih =>
    by_cases hq : a = quoteChar
    · subst hq
      simp [replaceCharList, replaceCharList_append, specEscapeTextChar,
        hqn, ih]
    · by_cases hn : a = nulChar
      · subst hn
        simp [replaceCharList, replaceCharList_append, specEscapeTextChar,
          hq, ih]
      · simp [replaceCharList, replaceCharList_append, specEscapeTextChar,
          hq, hn, ih]

/-- C3: for every scalar value, `escape_value` returns NULL for null, 1/0 for
booleans, the decimal form for integers and finite floats with NaN and
infinities mapped to NULL, `X` with lowercase hex in single quotes for blobs,
and for text the string wrapped in single quotes with inner single quotes
doubled and embedded NUL bytes removed — i.e. it agrees with the function
written from the spec's serialization rules. -/
theorem escape_value_matches_spec (v : Value) :
    escape_value v = escape_value_spec v := by
  cases v with
  | text s =>
    show sqStr ++ (replaceCharWith nulChar ""
        (replaceCharWith quoteChar (sqStr ++ sqStr) s)) ++ sqStr = _
    unfold escape_value_spec
    congr 2
    unfold replaceCharWith
    have h2 : (sqStr ++ sqStr).toList = [quoteChar, quoteChar] := by decide
    have h0 : ("" : String).toList = [] := by decide
    rw [h2, h0]
    show String.mk (replaceCharList nulChar []
        (replaceCharList quoteChar [quoteChar, quoteChar] s.toList)) = _
    rw [escape_text_chars]
  | float f => cases f <;> rfl
  | _ => rfl

/-- C1 evaluation at the failing input: with size ceiling 16 the single-row
input whose serialized row is 26 bytes long is not surfaced as an error —
`chunk_rows` emits it as a chunk whose byte_size 68 exceeds the ceiling. -/
theorem chunk_rows_oversized_row_emitted_unflagged :
    (chunk_rows 16 "t" ["c"]
        [[Value.text (String.mk (List.replicate 24 (Char.ofNat 97)))]]
        false 0).map (fun c => (c.row_count, c.byte_size)) = [(1, 68)]
      ∧ 16 < 68 := by
  exact ⟨by decide, by decide⟩

@[simp] theorem isChain_nil (a b : Nat) : IsChain a b [] ↔ False := by
  simp [IsChain]

@[simp] theorem isChain_singleton (a b : Nat) (c : InsertChunk) :
    IsChain a b [c] ↔ c.start_offset = a ∧ c.end_offset = b := by
  simp [IsChain]

theorem isChain_cons₂ (a b : Nat) (c c₂ : InsertChunk)
    (rest : List InsertChunk) :
    IsChain a b (c :: c₂ :: rest) ↔
      c.start_offset = a ∧ IsChain (c.end_offset + 1) b (c₂ :: rest) := by
  simp [IsChain]

theorem isChain_ne_nil {a b : Nat} {l : List InsertChunk} (h : IsChain a b l) :
    l ≠ [] := by
  cases l with
  | nil => exact absurd h (by simp)
  | cons c rest => exact List.cons_ne_nil c rest

theorem isChain_cons {start endv : Nat} {c : InsertChunk}
    {l : List InsertChunk} (hne : l ≠ []) (hs : c.start_offset = start)
    (hrest : IsChain (c.end_offset + 1) endv l) :
    IsChain start endv (c :: l) := by
  cases l with
  | nil => exact absurd rfl hne
  | cons c₂ rest => exact ⟨hs, hrest⟩

/-- Combined loop invariant for `chunkRowsAux`: starting from a nonempty
accumulator `cur` whose first row sits at offset `cs` with
`cs + cur.length = s + i`, the produced chunks form a contiguous chain from
`cs` to `s + n - 1`, their row counts sum to the remaining rows, and every
chunk's metadata is internally consistent. -/
theorem chunkRowsAux_spec (mx base : Nat) (table : String)
    (columns : List String) (replace : Bool) (s n : Nat) :
    ∀ (rest : List (List Value)) (i : Nat) (cur : List (List Value))
      (curSize cs : Nat), cur ≠ [] → cs + cur.length = s + i →
      i + rest.length = n →
      IsChain cs (s + n - 1)
          (chunkRowsAux mx base table columns replace s n rest i cur curSize cs)
        ∧ sumRowCounts
            (chunkRowsAux mx base table columns replace s n rest i cur curSize cs)
            = cur.length + rest.length
        ∧ ∀ ch ∈ chunkRowsAux mx base table columns replace s n rest i cur curSize cs,
            1 ≤ ch.row_count
              ∧ ch.end_offset + 1 = ch.start_offset + ch.row_count
              ∧ ch.byte_size = utf8Len ch.sql := by
  intro rest
  induction rest with
  | nil =>
    intro i cur curSize cs hcur hcs hn
    have hlen : 1 ≤ cur.length := List.length_pos.mpr hcur
    have hemp : cur.isEmpty = false := by
      simp [List.isEmpty_iff, hcur]
    have hrw : chunkRowsAux mx base table columns replace s n [] i cur curSize
        cs = [mkChunk table columns replace cur cs (s + n - 1)] := by
      simp [chunkRowsAux, hemp]
    rw [hrw]
    simp only [List.length_nil, Nat.add_zero] at hn
    refine ⟨by simp [mkChunk], ?_, ?_⟩
    · simp [sumRowCounts, mkChunk]
    · intro ch hch
      simp only [List.mem_singleton] at hch
      subst hch
      refine ⟨hlen, ?_, rfl⟩
      simp only [mkChunk]
      omega
  | cons r rest ih =>
    intro i cur curSize cs hcur hcs hn
    have hlen : 1 ≤ cur.length := List.length_pos.mpr hcur
    have hemp : cur.isEmpty = false := by
      simp [List.isEmpty_iff, hcur]
    have h2 : (i + 1) + rest.length = n := by
      simp only [List.length_cons] at hn; omega
    by_cases hcond : mx < curSize + (utf8Len (format_row r) + 2)
    · have hrw : chunkRowsAux mx base table columns replace s n (r :: rest) i
          cur curSize cs
          = mkChunk table columns replace cur cs (cs + cur.length - 1) ::
            chunkRowsAux mx base table columns replace s n rest (i + 1) [r]
              (base + utf8Len (format_row r)) (s + i) := by
        simp [chunkRowsAux, hemp, hcond]
      rw [hrw]
      obtain ⟨hchain, hsum, hmem⟩ :=
        ih (i + 1) [r] (base + utf8Len (format_row r)) (s + i)
          (List.cons_ne_nil r []) (by simp [Nat.add_assoc]) h2
      refine ⟨?_, ?_, ?_⟩
      · refine isChain_cons (isChain_ne_nil hchain) rfl ?_
        have he : (mkChunk table columns replace cur cs
            (cs + cur.length - 1)).end_offset + 1 = s + i := by
          simp only [mkChunk]; omega
        rw [he]; exact hchain
      · simp only [sumRowCounts, List.map_cons, List.sum_cons] at hsum ⊢
        simp only [mkChunk, List.length_cons, List.length_singleton,
          List.length_nil] at hsum ⊢
        omega
      · intro ch hch
        rcases List.mem_cons.mp hch with hch | hch
        · subst hch
          refine ⟨hlen, ?_, rfl⟩
          simp only [mkChunk]
          omega
        · exact hmem ch hch
    · have hrw : chunkRowsAux mx base table columns replace s n (r :: rest) i
          cur curSize cs
          = chunkRowsAux mx base table columns replace s n rest (i + 1)
              (cur ++ [r]) (curSize + (utf8Len (format_row r) + 2)) cs := by
        simp [chunkRowsAux, hemp, hcond]
      rw [hrw]
      obtain ⟨hchain, hsum, hmem⟩ :=
        ih (i + 1) (cur ++ [r]) (curSize + (utf8Len (format_row r) + 2)) cs
          (by simp) (by simp only [List.length_append, List.length_singleton]; omega)
          h2
      refine ⟨hchain, ?_, hmem⟩
      simp only [List.length_append, List.length_cons,
        List.length_singleton, List.length_nil] at hsum ⊢
      omega

/-- C2: for every non-empty row list with starting offset `s`, the emitted
chunks' (start_offset, end_offset) intervals are contiguous and a partition
of `[s, s + n - 1]`: the first chunk starts at `s`, each chunk starts one
past the previous chunk's end, the last ends at `s + n - 1`, and the row
counts sum to `n`. -/
theorem chunk_rows_coverage (mx : Nat) (table : String) (columns : List String)
    (rows : List (List Value)) (replace : Bool) (s : Nat) (h : rows ≠ []) :
    IsChain s (s + rows.length - 1)
        (chunk_rows mx table columns rows replace s)
      ∧ sumRowCounts (chunk_rows mx table columns rows replace s)
          = rows.length := by
  obtain ⟨r, rest, rfl⟩ := List.exists_cons_of_ne_nil h
  have hne : (r :: rest : List (List Value)).isEmpty = false := by simp
  unfold chunk_rows
  rw [hne]
  simp only [Bool.false_eq_true, if_false]
  rw [show chunkRowsAux mx (baseSize table columns replace) table columns
      replace s (r :: rest).length (r :: rest) 0 [] (baseSize table columns replace) s
      = chunkRowsAux mx (baseSize table columns replace) table columns replace
        s (r :: rest).length rest 1 [r]
        (baseSize table columns replace + (utf8Len (format_row r) + 0)) s from by
    simp [chunkRowsAux]]
  obtain ⟨hchain, hsum, _⟩ :=
    chunkRowsAux_spec mx (baseSize table columns replace) table columns replace
      s (r :: rest).length rest 1 [r]
      (baseSize table columns replace + (utf8Len (format_row r) + 0)) s
      (List.cons_ne_nil r []) (by simp)
      (by simp only [List.length_cons]; omega)
  refine ⟨hchain, ?_⟩
  simp only [List.length_cons, List.length_singleton, List.length_nil]
    at hsum ⊢
  omega

/-- C2 witness: the coverage theorem applied to three concrete rows starting
at offset 5. -/
theorem chunk_rows_coverage_witness :
    IsChain 5 7
        (chunk_rows 60 "t" ["a"]
          [[Value.int 1], [Value.int 2], [Value.int 3]] false 5)
      ∧ sumRowCounts
          (chunk_rows 60 "t" ["a"]
            [[Value.int 1], [Value.int 2], [Value.int 3]] false 5) = 3 :=
  chunk_rows_coverage 60 "t" ["a"]
    [[Value.int 1], [Value.int 2], [Value.int 3]] false 5
    (List.cons_ne_nil _ _)

/-- C10: every chunk emitted by `chunk_rows` has internally consistent
metadata: `row_count ≥ 1`, `end_offset − start_offset + 1 = row_count`
(stated subtraction-free as `end_offset + 1 = start_offset + row_count`),
and `byte_size` equal to the UTF-8 byte length of `sql`. -/
theorem chunk_rows_metadata (mx : Nat) (table : String) (columns : List String)
    (rows : List (List Value)) (replace : Bool) (s : Nat) :
    ∀ ch ∈ chunk_rows mx table columns rows replace s,
      1 ≤ ch.row_count ∧ ch.end_offset + 1 = ch.start_offset + ch.row_count
        ∧ ch.byte_size = utf8Len ch.sql := by
  cases rows with
  | nil => intro ch hch; simp [chunk_rows] at hch
  | cons r rest =>
    intro ch hch
    have hne : (r :: rest : List (List Value)).isEmpty = false := by simp
    unfold chunk_rows at hch
    rw [hne] at hch
    simp only [Bool.false_eq_true, if_false] at hch
    rw [show chunkRowsAux mx (baseSize table columns replace) table columns
        replace s (r :: rest).length (r :: rest) 0 [] (baseSize table columns replace) s
        = chunkRowsAux mx (baseSize table columns replace) table columns replace
          s (r :: rest).length rest 1 [r]
          (baseSize table columns replace + (utf8Len (format_row r) + 0)) s from by
      simp [chunkRowsAux]] at hch
    obtain ⟨_, _, hmem⟩ :=
      chunkRowsAux_spec mx (baseSize table columns replace) table columns
        replace s (r :: rest).length rest 1 [r]
        (baseSize table columns replace + (utf8Len (format_row r) + 0)) s
        (List.cons_ne_nil r []) (by simp)
        (by simp only [List.length_cons]; omega)
    exact hmem ch hch

/-- C10 witness: the metadata theorem applied to a concrete emitted chunk. -/
theorem chunk_rows_metadata_witness :
    1 ≤ (InsertChunk.mk "t" "INSERT OR IGNORE INTO \"t\" (\"c\") VALUES\n(1);"
        1 43 0 0).row_count
      ∧ (InsertChunk.mk "t" "INSERT OR IGNORE INTO \"t\" (\"c\") VALUES\n(1);"
          1 43 0 0).end_offset + 1
        = (InsertChunk.mk "t" "INSERT OR IGNORE INTO \"t\" (\"c\") VALUES\n(1);"
            1 43 0 0).start_offset
          + (InsertChunk.mk "t" "INSERT OR IGNORE INTO \"t\" (\"c\") VALUES\n(1);"
              1 43 0 0).row_count
      ∧ (InsertChunk.mk "t" "INSERT OR IGNORE INTO \"t\" (\"c\") VALUES\n(1);"
          1 43 0 0).byte_size
        = utf8Len (InsertChunk.mk "t"
            "INSERT OR IGNORE INTO \"t\" (\"c\") VALUES\n(1);" 1 43 0 0).sql :=
  chunk_rows_metadata 1000 "t" ["c"] [[Value.int 1]] false 0 _ (by decide)

/-- C4 evaluation at the failing inputs: a run in which the first table
failed 1 row and a later table then succeeded a batch is marked `completed`
even though a row failed, and a clean run with one recorded verification
mismatch is also marked `completed` — both contradicting "completed iff no
row failed in any table, with verification mismatches failing the run". -/
theorem push_status_ignores_failures_and_mismatches :
    pushFinalStatus [[[⟨1, false⟩]], [[⟨1, true⟩]]] 0 = "completed"
      ∧ totalRowsFailed [[[⟨1, false⟩]], [[⟨1, true⟩]]] = 1
      ∧ pushFinalStatus [[[⟨1, true⟩]]] 1 = "completed" :=
  ⟨rfl, rfl, rfl⟩

/-- C6: every 429 response makes the client sleep for the Retry-After value
(default 60 seconds) and retry, up to 3 total attempts, after which it
raises the rate-limit failure exposing the suggested delay; in particular a
server answering 429 twice and then 200 sees the call complete in exactly
three HTTP attempts, honoring both Retry-After values. -/
theorem d1_request_retry_semantics (responses : Nat → HttpResp) (a b : Nat) :
    (responses 0 = .status429 (some a) → responses 1 = .status429 (some b) →
        responses 2 = .parsed → d1Request responses = .responded 3 [a, b])
      ∧ (responses 0 = .status429 none → responses 1 = .parsed →
          d1Request responses = .responded 2 [60])
      ∧ (responses 0 = .status429 (some a) → responses 1 = .status429 (some a) →
          responses 2 = .status429 (some b) →
          d1Request responses = .rateLimited b 3 [a, a]) := by
  refine ⟨?_, ?_, ?_⟩ <;> intro h0 h1 <;>
    first
    | (intro h2; simp [d1Request, reqLoop, h0, h1, h2])
    | simp [d1Request, reqLoop, h0, h1]

/-- C6 witness: the retry theorem applied to the concrete 429/429/200 server
of the spec's scenario, with Retry-After 5 and 7. -/
theorem d1_request_retry_semantics_witness :
    d1Request (fun n => if n = 0 then .status429 (some 5)
        else if n = 1 then .status429 (some 7) else .parsed)
      = .responded 3 [5, 7] :=
  (d1_request_retry_semantics _ 5 7).1 rfl rfl rfl

/-- C7 counterexample: with matching operation, source and destination,
status in_progress, stored fingerprint "abc" but supplied fingerprint ""
(what `SyncEngine.push` passes, engine.py 135-139), the state is resumed
although the stored fingerprint does not match the supplied one — refuting
"resumed if and only if … the stored settings fingerprint matches the
supplied one". -/
theorem get_or_create_resumes_despite_fingerprint_mismatch :
    isResume (get_or_create_state
        (some ⟨"push", "a.db", "db@cloudflare", "in_progress", "abc", "", []⟩)
        "push" "a.db" "db@cloudflare" "") = true
      ∧ ("abc" : String) ≠ "" :=
  ⟨rfl, by decide⟩

/-- C7 amended: an existing state is resumed iff operation, source and
destination all match, its status is in_progress, and the supplied settings
fingerprint is empty or equal to the stored one; otherwise a fresh record is
created. -/
theorem get_or_create_resume_iff (existing : Option SyncStateRec)
    (operation source destination settings_hash : String) :
    isResume (get_or_create_state existing operation source destination
        settings_hash) = true
      ↔ ∃ ex, existing = some ex ∧ ex.operation = operation
          ∧ ex.source = source ∧ ex.destination = destination
          ∧ ex.status = "in_progress"
          ∧ (settings_hash = "" ∨ ex.settings_hash = settings_hash) := by
  cases existing with
  | none => simp [get_or_create_state, isResume]
  | some ex =>
    simp only [get_or_create_state]
    split_ifs with h1 h2
    · simp only [isResume, Bool.false_eq_true, false_iff]
      rintro ⟨ex2, hex, _, _, _, _, hfp⟩
      injection hex with hex
      subst hex
      rcases hfp with hfp | hfp
      · exact h2.1 hfp
      · exact h2.2 hfp
    · simp only [isResume, true_iff]
      refine ⟨ex, rfl, h1.1, h1.2.1, h1.2.2.1, h1.2.2.2, ?_⟩
      by_cases hsh : settings_hash = ""
      · exact Or.inl hsh
      · right
        by_contra hne2
        exact h2 ⟨hsh, hne2⟩
    · simp only [isResume, Bool.false_eq_true, false_iff]
      rintro ⟨ex2, hex, hop, hsrc, hdst, hst, _⟩
      injection hex with hex
      subst hex
      exact h1 ⟨hop, hsrc, hdst, hst⟩

/-- C8 counterexample: with configured algorithm sha256 and the single batch
row (null, true), the reader instantiates MD5 — not the configured
algorithm — and feeds it the string `|True`, while the canonical §4.6
encoding of that row is backslash-N followed by `|1`. -/
theorem batch_checksum_not_canonical :
    (calculate_batch_checksum "sha256"
        [[Value.null, Value.boolean true]]).algorithm = "md5"
      ∧ ("md5" : String) ≠ "sha256"
      ∧ (calculate_batch_checksum "sha256"
          [[Value.null, Value.boolean true]]).updates = ["|True"]
      ∧ row_checksum_input [Value.null, Value.boolean true] = "\\N|1"
      ∧ ("|True" : String) ≠ "\\N|1" :=
  ⟨rfl, by decide, rfl, rfl, by decide⟩

/-- C8 amended: the reader's batch fingerprint always instantiates MD5,
ignoring the configured algorithm, and feeds one update per row holding the
row's cells encoded by Python `str` — with null as the empty string rather
than the canonical backslash-N — joined by the field separator `|`; on rows
whose cells are all text, integers or finite floats this update string
agrees with the canonical §4.6 row string. -/
theorem batch_checksum_amended (configuredAlgorithm : String)
    (rows : List (List Value)) :
    (calculate_batch_checksum configuredAlgorithm rows).algorithm = "md5"
      ∧ (calculate_batch_checksum configuredAlgorithm rows).updates
          = rows.map (fun row => joinSep "|" (row.map checksumCellStr))
      ∧ ∀ row ∈ rows, (∀ v ∈ row, strLikeCell v = true) →
          joinSep "|" (row.map checksumCellStr) = row_checksum_input row := by
  refine ⟨rfl, rfl, ?_⟩
  intro row _ hcells
  unfold row_checksum_input
  congr 1
  apply List.map_congr_left
  intro v hv
  have hs := hcells v hv
  cases v with
  | text s => rfl
  | int i => rfl
  | float f => cases f with
    | finite d => rfl
    | nan => exact absurd hs (by simp [strLikeCell])
    | posInf => exact absurd hs (by simp [strLikeCell])
    | negInf => exact absurd hs (by simp [strLikeCell])
  | null => exact absurd hs (by simp [strLikeCell])
  | boolean b => exact absurd hs (by simp [strLikeCell])
  | blob bs => exact absurd hs (by simp [strLikeCell])

/-- C8 amendment witness: the amended theorem applied to one concrete
str-like row. -/
theorem batch_checksum_amended_witness :
    joinSep "|" ([Value.text "x", Value.int 2].map checksumCellStr)
      = row_checksum_input [Value.text "x", Value.int 2] :=
  (batch_checksum_amended "sha256" [[Value.text "x", Value.int 2]]).2.2
    [Value.text "x", Value.int 2] (by decide) (by decide)

/-- C9 counterexample: a concrete save's trace is a single direct write of
the state file itself; it is not a write to some sibling temporary file
followed by a rename onto the state file, so the claimed atomic-save shape
does not hold. -/
theorem save_is_not_temp_write_then_rename :
    save_ops ".d1-sync-state.json" none (some sampleState) "t1"
        = [FsOp.write ".d1-sync-state.json"
            (FileContent.stateJson { sampleState with updated_at := "t1" })]
      ∧ ¬ ∃ tmp content, tmp ≠ ".d1-sync-state.json"
          ∧ save_ops ".d1-sync-state.json" none (some sampleState) "t1"
              = [FsOp.write tmp content,
                  FsOp.rename tmp ".d1-sync-state.json"] := by
  refine ⟨rfl, ?_⟩
  rintro ⟨tmp, content, hne, heq⟩
  simp [save_ops] at heq

/-- C9 amended: every save with a loaded state writes the refreshed state
directly to the state file as its first operation, and the trace never
contains a rename; the sibling-temporary-and-rename discipline is absent, so
a save interrupted mid-write is not protected. -/
theorem save_writes_state_file_directly (stateFile : String)
    (failedRowsFile : Option String) (st : SyncStateRec) (now : String) :
    (save_ops stateFile failedRowsFile (some st) now).head?
        = some (FsOp.write stateFile
            (FileContent.stateJson { st with updated_at := now }))
      ∧ ∀ op ∈ save_ops stateFile failedRowsFile (some st) now,
          ∀ a b, op ≠ FsOp.rename a b := by
  refine ⟨rfl, ?_⟩
  intro op hop a b
  simp only [save_ops] at hop
  rcases List.mem_cons.mp hop with h | h
  · subst h; simp
  · cases failedRowsFile with
    | none => simp at h
    | some f =>
      by_cases hemp : st.failed_rows.isEmpty
      · simp [hemp] at h
      · simp only [hemp, Bool.false_eq_true, if_false,
          List.mem_singleton] at h
        subst h; simp

/-- C9 amendment witness: the direct-write theorem applied to a concrete
save, including its no-rename part at the concrete first operation. -/
theorem save_writes_state_file_directly_witness :
    (save_ops ".d1-sync-state.json" (some "failed_rows.json")
        (some sampleState) "t1").head?
      = some (FsOp.write ".d1-sync-state.json"
          (FileContent.stateJson { sampleState with updated_at := "t1" }))
      ∧ FsOp.write ".d1-sync-state.json"
          (FileContent.stateJson { sampleState with updated_at := "t1" })
        ≠ FsOp.rename "x" "y" :=
  ⟨(save_writes_state_file_directly ".d1-sync-state.json"
      (some "failed_rows.json") sampleState "t1").1,
    (save_writes_state_file_directly ".d1-sync-state.json"
      (some "failed_rows.json") sampleState "t1").2 _ (by decide) "x" "y"⟩

theorem insertSorted_length (x : String) (l : List String) :
    (insertSorted x l).length = l.length + 1 := by
  induction l with
  | nil => rfl
  | cons y ys ih =>
    simp only [insertSorted]
    split <;> simp [ih]

theorem sortStrings_length (l : List String) :
    (sortStrings l).length = l.length := by
  induction l with
  | nil => rfl
  | cons x xs ih => simp [sortStrings, insertSorted_length, ih]

theorem mem_insertSorted (x y : String) (l : List String) :
    y ∈ insertSorted x l ↔ y = x ∨ y ∈ l := by
  induction l with
  | nil => simp [insertSorted]
  | cons z zs ih =>
    simp only [insertSorted]
    split
    · simp
    · simp only [List.mem_cons, ih]
      tauto

theorem mem_sortStrings (y : String) (l : List String) :
    y ∈ sortStrings l ↔ y ∈ l := by
  induction l with
  | nil => simp [sortStrings]
  | cons x xs ih => simp [sortStrings, mem_insertSorted, ih]

theorem sortStrings_eq_nil {l : List String} (h : sortStrings l = []) :
    l = [] := by
  have := sortStrings_length l
  rw [h] at this
  exact List.eq_nil_of_length_eq_zero this.symm

theorem updateRemaining_length (t : String)
    (rem : List (String × List String)) :
    (updateRemaining t rem).1.length + (updateRemaining t rem).2.length
      = rem.length := by
  induction rem with
  | nil => rfl
  | cons p rest ih =>
    obtain ⟨nm, ds⟩ := p
    simp only [updateRemaining]
    split
    · split
      · simp only [List.length_cons]
        omega
      · simp only [List.length_cons]
        omega
    · simp only [List.length_cons]
      omega

theorem updateRemaining_mem_rem (t : String)
    (rem : List (String × List String)) :
    ∀ p ∈ (updateRemaining t rem).1, ∃ q ∈ rem, p.1 = q.1
      ∧ ((t ∉ q.2 ∧ p.2 = q.2)
          ∨ (t ∈ q.2 ∧ p.2 = q.2.erase t ∧ p.2 ≠ [])) := by
  induction rem with
  | nil => intro p hp; simp [updateRemaining] at hp
  | cons q0 rest ih =>
    obtain ⟨nm, ds⟩ := q0
    intro p hp
    simp only [updateRemaining] at hp
    by_cases ht : t ∈ ds
    · by_cases he : ds.erase t = []
      · simp only [ht, he, if_pos, if_true] at hp
        obtain ⟨q, hq, hrest⟩ := ih p hp
        exact ⟨q, List.mem_cons_of_mem _ hq, hrest⟩
      · simp only [ht, he, if_pos, if_true, if_neg, if_false,
          List.mem_cons] at hp
        rcases hp with hp | hp
        · subst hp
          exact ⟨(nm, ds), List.mem_cons_self _ _,
            rfl, Or.inr ⟨ht, rfl, he⟩⟩
        · obtain ⟨q, hq, hrest⟩ := ih p hp
          exact ⟨q, List.mem_cons_of_mem _ hq, hrest⟩
    · simp only [ht, if_neg, if_false, List.mem_cons] at hp
      rcases hp with hp | hp
      · subst hp
        exact ⟨(nm, ds), List.mem_cons_self _ _, rfl, Or.inl ⟨ht, rfl⟩⟩
      · obtain ⟨q, hq, hrest⟩ := ih p hp
        exact ⟨q, List.mem_cons_of_mem _ hq, hrest⟩

theorem updateRemaining_mem_ready (t : String)
    (rem : List (String × List String)) :
    ∀ r ∈ (updateRemaining t rem).2, ∃ q ∈ rem, q.1 = r ∧ t ∈ q.2
      ∧ q.2.erase t = [] := by
  induction rem with
  | nil => intro r hr; simp [updateRemaining] at hr
  | cons q0 rest ih =>
    obtain ⟨nm, ds⟩ := q0
    intro r hr
    simp only [updateRemaining] at hr
    by_cases ht : t ∈ ds
    · by_cases he : ds.erase t = []
      · simp only [ht, he, if_pos, if_true, List.mem_cons] at hr
        rcases hr with hr | hr
        · exact ⟨(nm, ds), List.mem_cons_self _ _, hr.symm, ht, he⟩
        · obtain ⟨q, hq, hrest⟩ := ih r hr
          exact ⟨q, List.mem_cons_of_mem _ hq, hrest⟩
      · simp only [ht, he, if_pos, if_true, if_neg, if_false] at hr
        obtain ⟨q, hq, hrest⟩ := ih r hr
        exact ⟨q, List.mem_cons_of_mem _ hq, hrest⟩
    · simp only [ht, if_neg, if_false] at hr
      obtain ⟨q, hq, hrest⟩ := ih r hr
      exact ⟨q, List.mem_cons_of_mem _ hq, hrest⟩

theorem updateRemaining_cover (t : String)
    (rem : List (String × List String)) :
    ∀ q ∈ rem, q.1 ∈ (updateRemaining t rem).1.map Prod.fst
      ∨ q.1 ∈ (updateRemaining t rem).2 := by
  induction rem with
  | nil => intro q hq; simp at hq
  | cons q0 rest ih =>
    obtain ⟨nm, ds⟩ := q0
    intro q hq
    simp only [updateRemaining]
    rcases List.mem_cons.mp hq with hq | hq
    · subst hq
      by_cases ht : t ∈ ds
      · by_cases he : ds.erase t = []
        · simp [ht, he]
        · simp [ht, he]
      · simp [ht]
    · rcases ih q hq with h | h
      · left
        by_cases ht : t ∈ ds
        · by_cases he : ds.erase t = [] <;> simp [ht, he, h]
        · simp [ht, h]
      · right
        by_cases ht : t ∈ ds
        · by_cases he : ds.erase t = [] <;> simp [ht, he, h]
        · simp [ht, h]

theorem topoOut_nil (deps0 : String → List String) : TopoOut deps0 [] := by
  intro i h
  simp at h

theorem topoOut_snoc (deps0 : String → List String) (out : List String)
    (t : String) (hout : TopoOut deps0 out)
    (ht : ∀ d ∈ deps0 t, d ∈ out) : TopoOut deps0 (out ++ [t]) := by
  intro i h d hd
  have hlen : i < out.length + 1 := by simpa using h
  by_cases hi : i < out.length
  · have hget : (out ++ [t]).get ⟨i, h⟩ = out.get ⟨i, hi⟩ := by
      simp [List.get_eq_getElem, List.getElem_append_left hi]
    rw [hget] at hd
    have hmem := hout i hi d hd
    rw [List.take_append_of_le_length (le_of_lt hi)]
    exact hmem
  · have hi2 : i = out.length := by omega
    subst hi2
    have hget : (out ++ [t]).get ⟨out.length, h⟩ = t := by
      simp [List.get_eq_getElem]
    rw [hget] at hd
    rw [List.take_left]
    exact ht d hd

theorem lookupDeps_eq_of_mem (deps : List (String × List String))
    (hnd : (deps.map Prod.fst).Nodup) :
    ∀ p ∈ deps, lookupDeps deps p.1 = p.2 := by
  induction deps with
  | nil => intro p hp; simp at hp
  | cons q rest ih =>
    intro p hp
    rcases List.mem_cons.mp hp with hp | hp
    · subst hp
      simp [lookupDeps, List.find?_cons]
    · have hq1 : q.1 ≠ p.1 := by
        intro hcontra
        have : p.1 ∈ rest.map Prod.fst := List.mem_map_of_mem Prod.fst hp
        rw [← hcontra] at this
        exact (List.nodup_cons.mp (by simpa using hnd)).1 this
      have : (q.1 == p.1) = false := by
        simp [hq1]
      simp only [lookupDeps, List.find?_cons, this]
      exact ih (by simpa using (List.nodup_cons.mp (by simpa using hnd)).2) p hp

theorem addDep_nodup (d : String) (ds : List String) (h : ds.Nodup) :
    (addDep d ds).Nodup := by
  unfold addDep
  split
  · exact h
  · simp [List.nodup_append, h, *]

theorem mem_addDep (x d : String) (ds : List String) :
    x ∈ addDep d ds ↔ x = d ∨ x ∈ ds := by
  unfold addDep
  split
  · constructor
    · exact Or.inr
    · rintro (rfl | hx)
      · assumption
      · exact hx
  · simp [List.mem_append]
    tauto

theorem buildDeps_aux (names : List String) (own : String)
    (refs : List String) :
    ∀ acc : List String, acc.Nodup → (∀ d ∈ acc, d ∈ names ∧ d ≠ own) →
      (refs.foldl (fun ds r => if r ∈ names ∧ r ≠ own then addDep r ds
          else ds) acc).Nodup
        ∧ ∀ d ∈ refs.foldl (fun ds r => if r ∈ names ∧ r ≠ own
            then addDep r ds else ds) acc, d ∈ names ∧ d ≠ own := by
  induction refs with
  | nil => intro acc h1 h2; exact ⟨h1, h2⟩
  | cons r rs ih =>
    intro acc h1 h2
    simp only [List.foldl_cons]
    by_cases hr : r ∈ names ∧ r ≠ own
    · rw [if_pos hr]
      refine ih (addDep r acc) (addDep_nodup r acc h1) ?_
      intro d hd
      rcases (mem_addDep d r acc).mp hd with rfl | hd
      · exact hr
      · exact h2 d hd
    · rw [if_neg hr]
      exact ih acc h1 h2

theorem buildDeps_nodup (names : List String) (own : String)
    (refs : List String) : (buildDeps names own refs).Nodup :=
  (buildDeps_aux names own refs [] List.nodup_nil (by simp)).1

theorem buildDeps_mem (names : List String) (own : String)
    (refs : List String) :
    ∀ d ∈ buildDeps names own refs, d ∈ names ∧ d ≠ own :=
  (buildDeps_aux names own refs [] List.nodup_nil (by simp)).2

theorem buildDependencies_map_fst (tables : List (String × List String)) :
    (buildDependencies tables).map Prod.fst = tables.map Prod.fst := by
  simp [buildDependencies, Function.comp]

theorem mem_appendResidue (l : List String) :
    ∀ (out : List String) (nm : String),
      nm ∈ appendResidue out l ↔ nm ∈ out ∨ nm ∈ l := by
  induction l with
  | nil => intro out nm; simp [appendResidue]
  | cons a rest ih =>
    intro out nm
    simp only [appendResidue, ih, List.mem_cons]
    by_cases ha : a ∈ out
    · rw [if_pos ha]
      constructor
      · rintro (h | h)
        · exact Or.inl h
        · exact Or.inr (Or.inr h)
      · rintro (h | rfl | h)
        · exact Or.inl h
        · exact Or.inl ha
        · exact Or.inr h
    · rw [if_neg ha]
      simp only [List.mem_append, List.mem_singleton]
      tauto

theorem appendResidue_nodup (l : List String) :
    ∀ out : List String, out.Nodup → (appendResidue out l).Nodup := by
  induction l with
  | nil => intro out h; exact h
  | cons a rest ih =>
    intro out h
    simp only [appendResidue]
    by_cases ha : a ∈ out
    · rw [if_pos ha]
      exact ih out h
    · rw [if_neg ha]
      refine ih _ ?_
      simp [List.nodup_append, h, ha]

theorem appendResidue_of_subset (l : List String) :
    ∀ out : List String, (∀ nm ∈ l, nm ∈ out) →
      appendResidue out l = out := by
  induction l with
  | nil => intro out _; rfl
  | cons a rest ih =>
    intro out h
    simp only [appendResidue]
    rw [if_pos (h a (List.mem_cons_self a rest))]
    exact ih out (fun nm hnm => h nm (List.mem_cons_of_mem a hnm))

/-- Master invariant of the Kahn loop.  `deps0` is the (name-keyed) parsed
dependency function and `namesAll` the universe of table names; under the
invariants relating `ready`, `remaining` and `out` — ready names have all
dependencies emitted, remaining entries hold exactly their not-yet-emitted
dependencies, emitted output is duplicate-free and topologically consistent —
the loop's output stays duplicate-free, topologically consistent and inside
`namesAll`; no name is lost; a final remaining entry with an empty set was
emitted; and pending dependencies of final remaining entries were never
emitted. -/
theorem kahnLoop_master (deps0 : String → List String)
    (namesAll : List String) :
    ∀ N : Nat, ∀ (ready : List String)
      (remaining : List (String × List String)) (out : List String),
      ready.length + remaining.length ≤ N →
      (∀ r ∈ ready, ∀ d ∈ deps0 r, d ∈ out) →
      (∀ p ∈ remaining, ∀ d ∈ deps0 p.1, d ∈ p.2 ∨ d ∈ out) →
      (∀ p ∈ remaining, p.2.Nodup) →
      (∀ p ∈ remaining, ∀ d ∈ p.2, d ∈ deps0 p.1 ∧ d ∉ out ∧ d ∈ namesAll) →
      (∀ p ∈ remaining, p.2 = [] → p.1 ∈ out ∨ p.1 ∈ ready) →
      out.Nodup → TopoOut deps0 out →
      (∀ r ∈ ready, r ∈ namesAll) →
      (∀ p ∈ remaining, p.1 ∈ namesAll) →
      (∀ nm ∈ out, nm ∈ namesAll) →
      (kahnLoop ready remaining out).1.Nodup
        ∧ TopoOut deps0 (kahnLoop ready remaining out).1
        ∧ (∀ nm ∈ (kahnLoop ready remaining out).1, nm ∈ namesAll)
        ∧ (∀ p ∈ (kahnLoop ready remaining out).2, p.1 ∈ namesAll)
        ∧ (∀ nm, nm ∈ out ∨ nm ∈ ready ∨ nm ∈ remaining.map Prod.fst →
            nm ∈ (kahnLoop ready remaining out).1
              ∨ nm ∈ (kahnLoop ready remaining out).2.map Prod.fst)
        ∧ (∀ p ∈ (kahnLoop ready remaining out).2, p.2 = [] →
            p.1 ∈ (kahnLoop ready remaining out).1)
        ∧ (∀ p ∈ (kahnLoop ready remaining out).2, ∀ d ∈ p.2,
            d ∈ deps0 p.1 ∧ d ∉ (kahnLoop ready remaining out).1
              ∧ d ∈ namesAll) := by
  intro N
  induction N with
  | zero =>
    intro ready remaining out hlen hB hA hNd hF hE hOnd hTopo hRN hMN hON
    have hr0 : ready = [] := List.eq_nil_of_length_eq_zero (by omega)
    have hm0 : remaining = [] := List.eq_nil_of_length_eq_zero (by omega)
    subst hr0; subst hm0
    have hk : kahnLoop [] [] out = (out, []) := by
      rw [kahnLoop.eq_def]
      split
      · rfl
      · rename_i t rest heq
        simp [sortStrings] at heq
    rw [hk]
    refine ⟨hOnd, hTopo, hON, by simp, ?_, by simp, by simp⟩
    intro nm hnm
    rcases hnm with h | h | h
    · exact Or.inl h
    · simp at h
    · simp at h
  | succ N ihN =>
    intro ready remaining out hlen hB hA hNd hF hE hOnd hTopo hRN hMN hON
    cases hs : sortStrings ready with
    | nil =>
      have hre : ready = [] := sortStrings_eq_nil hs
      have hk : kahnLoop ready remaining out = (out, remaining) := by
        rw [kahnLoop.eq_def]
        split
        · rfl
        · rename_i t rest heq
          rw [hs] at heq
          cases heq
      rw [hk]
      refine ⟨hOnd, hTopo, hON, hMN, ?_, ?_, ?_⟩
      · intro nm hnm
        rcases hnm with h | h | h
        · exact Or.inl h
        · rw [hre] at h
          simp at h
        · exact Or.inr h
      · intro p hp hp2
        rcases hE p hp hp2 with h | h
        · exact h
        · rw [hre] at h
          simp at h
      · intro p hp d hd
        exact hF p hp d hd
    | cons t rest =>
      have hk : kahnLoop ready remaining out
          = kahnLoop (rest ++ (updateRemaining t remaining).2)
              (updateRemaining t remaining).1
              (if t ∈ out then out else out ++ [t]) := by
        rw [kahnLoop.eq_def]
        split
        · rename_i heq
          rw [hs] at heq
          cases heq
        · rename_i t2 rest2 heq
          rw [hs] at heq
          injection heq with h1 h2
          subst h1; subst h2
          rfl
      rw [hk]
      have htr : t ∈ ready := by
        rw [← mem_sortStrings t ready, hs]
        exact List.mem_cons_self t rest
      have hrest_sub : ∀ r ∈ rest, r ∈ ready := by
        intro r hr
        rw [← mem_sortStrings r ready, hs]
        exact List.mem_cons_of_mem t hr
      have htd : ∀ d ∈ deps0 t, d ∈ out := hB t htr
      have htn : t ∈ namesAll := hRN t htr
      set out2 := (if t ∈ out then out else out ++ [t]) with hout2
      have hout2_mem : ∀ x, x ∈ out2 ↔ x ∈ out ∨ x = t := by
        intro x
        rw [hout2]
        split
        · rename_i hto
          constructor
          · exact Or.inl
          · rintro (h | rfl)
            · exact h
            · exact hto
        · simp
      have hout2_sub : ∀ x ∈ out, x ∈ out2 := by
        intro x hx
        exact (hout2_mem x).mpr (Or.inl hx)
      have ht_out2 : t ∈ out2 := (hout2_mem t).mpr (Or.inr rfl)
      have hout2_nd : out2.Nodup := by
        rw [hout2]
        split
        · exact hOnd
        · rename_i hto
          simp [List.nodup_append, hOnd, hto]
      have hout2_topo : TopoOut deps0 out2 := by
        rw [hout2]
        split
        · exact hTopo
        · exact topoOut_snoc deps0 out t hTopo htd
      have hout2_names : ∀ nm ∈ out2, nm ∈ namesAll := by
        intro nm hnm
        rcases (hout2_mem nm).mp hnm with h | rfl
        · exact hON nm h
        · exact htn
      have hmeasure : (rest ++ (updateRemaining t remaining).2).length
          + (updateRemaining t remaining).1.length ≤ N := by
        have h1 := sortStrings_length ready
        rw [hs] at h1
        have h2 := updateRemaining_length t remaining
        simp only [List.length_append, List.length_cons] at *
        omega
      have hB2 : ∀ r ∈ rest ++ (updateRemaining t remaining).2,
          ∀ d ∈ deps0 r, d ∈ out2 := by
        intro r hr d hd
        rcases List.mem_append.mp hr with hr | hr
        · exact hout2_sub d (hB r (hrest_sub r hr) d hd)
        · obtain ⟨q, hq, hq1, htq, hqe⟩ :=
            updateRemaining_mem_ready t remaining r hr
          rw [← hq1] at hd
          rcases hA q hq d hd with hdq | hdo
          · have hqnd := hNd q hq
            by_cases hdt : d = t
            · rw [hdt]
              exact ht_out2
            · exfalso
              have : d ∈ q.2.erase t := (hqnd.mem_erase_iff).mpr ⟨hdt, hdq⟩
              rw [hqe] at this
              simp at this
          · exact hout2_sub d hdo
      have hA2 : ∀ p ∈ (updateRemaining t remaining).1,
          ∀ d ∈ deps0 p.1, d ∈ p.2 ∨ d ∈ out2 := by
        intro p hp d hd
        obtain ⟨q, hq, hp1, hcase⟩ := updateRemaining_mem_rem t remaining p hp
        rw [hp1] at hd
        rcases hA q hq d hd with hdq | hdo
        · rcases hcase with ⟨_, hp2⟩ | ⟨_, hp2, _⟩
          · rw [hp2]
            exact Or.inl hdq
          · by_cases hdt : d = t
            · rw [hdt]
              exact Or.inr ht_out2
            · rw [hp2]
              exact Or.inl (((hNd q hq).mem_erase_iff).mpr ⟨hdt, hdq⟩)
        · exact Or.inr (hout2_sub d hdo)
      have hNd2 : ∀ p ∈ (updateRemaining t remaining).1, p.2.Nodup := by
        intro p hp
        obtain ⟨q, hq, _, hcase⟩ := updateRemaining_mem_rem t remaining p hp
        rcases hcase with ⟨_, hp2⟩ | ⟨_, hp2, _⟩
        · rw [hp2]
          exact hNd q hq
        · rw [hp2]
          exact (hNd q hq).erase t
      have hF2 : ∀ p ∈ (updateRemaining t remaining).1, ∀ d ∈ p.2,
          d ∈ deps0 p.1 ∧ d ∉ out2 ∧ d ∈ namesAll := by
        intro p hp d hd
        obtain ⟨q, hq, hp1, hcase⟩ := updateRemaining_mem_rem t remaining p hp
        have hdq : d ∈ q.2 ∧ d ≠ t := by
          rcases hcase with ⟨htq, hp2⟩ | ⟨htq, hp2, _⟩
          · rw [hp2] at hd
            exact ⟨hd, fun hdt => htq (hdt ▸ hd)⟩
          · rw [hp2] at hd
            have := ((hNd q hq).mem_erase_iff).mp hd
            exact ⟨this.2, this.1⟩
        obtain ⟨hdd, hdo, hdn⟩ := hF q hq d hdq.1
        refine ⟨hp1 ▸ hdd, ?_, hdn⟩
        intro hcontra
        rcases (hout2_mem d).mp hcontra with h | h
        · exact hdo h
        · exact hdq.2 h
      have hE2 : ∀ p ∈ (updateRemaining t remaining).1, p.2 = [] →
          p.1 ∈ out2 ∨ p.1 ∈ rest ++ (updateRemaining t remaining).2 := by
        intro p hp hp2
        obtain ⟨q, hq, hp1, hcase⟩ := updateRemaining_mem_rem t remaining p hp
        rcases hcase with ⟨_, hpq⟩ | ⟨_, _, hpne⟩
        · have hq2 : q.2 = [] := by rw [← hpq]; exact hp2
          rcases hE q hq hq2 with h | h
          · exact Or.inl (hp1 ▸ hout2_sub q.1 h)
          · have : q.1 ∈ sortStrings ready := (mem_sortStrings q.1 ready).mpr h
            rw [hs] at this
            rcases List.mem_cons.mp this with h2 | h2
            · exact Or.inl (hp1 ▸ h2 ▸ ht_out2)
            · exact Or.inr (hp1 ▸ List.mem_append_left _ h2)
        · exact absurd hp2 hpne
      have hRN2 : ∀ r ∈ rest ++ (updateRemaining t remaining).2,
          r ∈ namesAll := by
        intro r hr
        rcases List.mem_append.mp hr with hr | hr
        · exact hRN r (hrest_sub r hr)
        · obtain ⟨q, hq, hq1, _, _⟩ :=
            updateRemaining_mem_ready t remaining r hr
          exact hq1 ▸ hMN q hq
      have hMN2 : ∀ p ∈ (updateRemaining t remaining).1, p.1 ∈ namesAll := by
        intro p hp
        obtain ⟨q, hq, hp1, _⟩ := updateRemaining_mem_rem t remaining p hp
        exact hp1 ▸ hMN q hq
      obtain ⟨c1, c2, c3, c4, c5, c6, c7⟩ :=
        ihN (rest ++ (updateRemaining t remaining).2)
          (updateRemaining t remaining).1 out2 hmeasure hB2 hA2 hNd2 hF2 hE2
          hout2_nd hout2_topo hRN2 hMN2 hout2_names
      refine ⟨c1, c2, c3, c4, ?_, c6, c7⟩
      intro nm hnm
      apply c5
      rcases hnm with h | h | h
      · exact Or.inl (hout2_sub nm h)
      · have : nm ∈ sortStrings ready := (mem_sortStrings nm ready).mpr h
        rw [hs] at this
        rcases List.mem_cons.mp this with h2 | h2
        · exact Or.inl (h2 ▸ ht_out2)
        · exact Or.inr (Or.inl (List.mem_append_left _ h2))
      · obtain ⟨q, hq, hq1⟩ := List.mem_map.mp h
        rcases updateRemaining_cover t remaining q hq with h2 | h2
        · exact Or.inr (Or.inr (hq1 ▸ h2))
        · exact Or.inr (Or.inl (hq1 ▸ List.mem_append_right _ h2))

/-- When the pending dependencies decrease along a rank function (a DAG),
every entry still remaining at loop exit was in fact already emitted: a
remaining entry with pending dependencies would start an infinite descent
inside the never-emitted remaining names. -/
theorem residue_in_out (namesAll : List String) (outF : List String)
    (remF : List (String × List String)) (rank : String → Nat)
    (hrank : ∀ p ∈ remF, ∀ d ∈ p.2, rank d < rank p.1)
    (hempty : ∀ p ∈ remF, p.2 = [] → p.1 ∈ outF)
    (hdeps : ∀ p ∈ remF, ∀ d ∈ p.2, d ∉ outF ∧ d ∈ namesAll)
    (hcov : ∀ nm ∈ namesAll, nm ∈ outF ∨ nm ∈ remF.map Prod.fst) :
    ∀ p ∈ remF, p.1 ∈ outF := by
  have key : ∀ k, ∀ p ∈ remF, rank p.1 < k → p.1 ∈ outF := by
    intro k
    induction k with
    | zero => intro p _ h; omega
    | succ k ih =>
      intro p hp hk
      cases hq2 : p.2 with
      | nil => exact hempty p hp hq2
      | cons d ds =>
        have hd : d ∈ p.2 := by
          rw [hq2]
          exact List.mem_cons_self d ds
        obtain ⟨hdo, hdn⟩ := hdeps p hp d hd
        rcases hcov d hdn with h | h
        · exact absurd h hdo
        · obtain ⟨q, hq, hq1⟩ := List.mem_map.mp h
          have hqout : q.1 ∈ outF := by
            apply ih q hq
            rw [hq1]
            have := hrank p hp d hd
            omega
          rw [hq1] at hqout
          exact absurd hqout hdo
  intro p hp
  exact key (rank p.1 + 1) p hp (by omega)

/-- C5: for every duplicate-free set of tables, the order returned by
`_sort_tables_by_dependencies` is a permutation of the table names (cyclic
residues are appended rather than aborting the run, and self-references or
references to absent tables were already dropped when building the
dependency sets); and whenever the parsed dependency edges form a DAG —
witnessed by a rank function that decreases along every edge — the order is
topologically consistent: every referenced table precedes its referencer. -/
theorem sort_tables_topological (tables : List (String × List String))
    (hnd : (tables.map Prod.fst).Nodup) :
    (sort_tables_by_dependencies tables).Perm (tables.map Prod.fst)
      ∧ ∀ rank : String → Nat,
          (∀ p ∈ buildDependencies tables, ∀ d ∈ p.2, rank d < rank p.1) →
          TopoOut (lookupDeps (buildDependencies tables))
            (sort_tables_by_dependencies tables) := by
  have hdnd : ((buildDependencies tables).map Prod.fst).Nodup := by
    rw [buildDependencies_map_fst]
    exact hnd
  have hlookup := lookupDeps_eq_of_mem (buildDependencies tables) hdnd
  have hdepmem : ∀ p ∈ buildDependencies tables,
      p.2.Nodup ∧ ∀ d ∈ p.2, d ∈ tables.map Prod.fst ∧ d ≠ p.1 := by
    intro p hp
    obtain ⟨q, _, hq1⟩ := List.mem_map.mp hp
    rw [← hq1]
    exact ⟨buildDeps_nodup _ _ _, buildDeps_mem _ _ _⟩
  have hfst : ∀ p ∈ buildDependencies tables,
      p.1 ∈ tables.map Prod.fst := by
    intro p hp
    rw [← buildDependencies_map_fst tables]
    exact List.mem_map_of_mem Prod.fst hp
  obtain ⟨c1, c2, c3, c4, c5, c6, c7⟩ :=
    kahnLoop_master (lookupDeps (buildDependencies tables))
      (tables.map Prod.fst)
      ((readyInit tables).length + (buildDependencies tables).length)
      (readyInit tables) (buildDependencies tables) [] le_rfl
      (by
        intro r hr d hd
        obtain ⟨p, hpf, hp1⟩ := List.mem_map.mp hr
        obtain ⟨hpm, hpe⟩ := List.mem_filter.mp hpf
        rw [← hp1, hlookup p hpm, List.isEmpty_iff.mp hpe] at hd
        simp at hd)
      (by
        intro p hp d hd
        rw [hlookup p hp] at hd
        exact Or.inl hd)
      (fun p hp => (hdepmem p hp).1)
      (by
        intro p hp d hd
        refine ⟨by rw [hlookup p hp]; exact hd, by simp,
          ((hdepmem p hp).2 d hd).1⟩)
      (by
        intro p hp hp2
        right
        apply List.mem_map_of_mem Prod.fst
        apply List.mem_filter.mpr
        exact ⟨hp, by simp [hp2]⟩)
      List.nodup_nil (topoOut_nil _)
      (by
        intro r hr
        obtain ⟨p, hpf, hp1⟩ := List.mem_map.mp hr
        exact hp1 ▸ hfst p (List.mem_filter.mp hpf).1)
      hfst
      (by intro nm hnm; simp at hnm)
  have hcov : ∀ nm ∈ tables.map Prod.fst,
      nm ∈ (kahnLoop (readyInit tables) (buildDependencies tables) []).1
        ∨ nm ∈ (kahnLoop (readyInit tables)
            (buildDependencies tables) []).2.map Prod.fst := by
    intro nm hnm
    apply c5
    right; right
    rw [buildDependencies_map_fst]
    exact hnm
  constructor
  · apply (List.perm_ext_iff_of_nodup (appendResidue_nodup _ _ c1) hnd).mpr
    intro nm
    rw [mem_appendResidue]
    constructor
    · rintro (h | h)
      · exact c3 nm h
      · rw [mem_sortStrings] at h
        obtain ⟨p, hp, hp1⟩ := List.mem_map.mp h
        exact hp1 ▸ c4 p hp
    · intro h
      rcases hcov nm h with h2 | h2
      · exact Or.inl h2
      · right
        rw [mem_sortStrings]
        exact h2
  · intro rank hrank
    have hrank2 : ∀ p ∈ (kahnLoop (readyInit tables)
        (buildDependencies tables) []).2, ∀ d ∈ p.2,
        rank d < rank p.1 := by
      intro p hp d hd
      have hp1 : p.1 ∈ tables.map Prod.fst := c4 p hp
      rw [← buildDependencies_map_fst tables] at hp1
      obtain ⟨q, hq, hq1⟩ := List.mem_map.mp hp1
      have hdd : d ∈ lookupDeps (buildDependencies tables) p.1 :=
        (c7 p hp d hd).1
      rw [← hq1, hlookup q hq] at hdd
      have := hrank q hq d hdd
      rw [hq1] at this
      exact this
    have hsub : ∀ nm ∈ sortStrings
        ((kahnLoop (readyInit tables)
          (buildDependencies tables) []).2.map Prod.fst),
        nm ∈ (kahnLoop (readyInit tables)
          (buildDependencies tables) []).1 := by
      intro nm hnm
      rw [mem_sortStrings] at hnm
      obtain ⟨p, hp, hp1⟩ := List.mem_map.mp hnm
      refine hp1 ▸ residue_in_out (tables.map Prod.fst) _ _ rank hrank2 c6
        (fun p2 hp2 d hd =>
          ⟨(c7 p2 hp2 d hd).2.1, (c7 p2 hp2 d hd).2.2⟩)
        hcov p hp
    unfold sort_tables_by_dependencies
    rw [appendResidue_of_subset _ _ hsub]
    exact c2

/-- C5 witness: the topological-sort theorem at the two-table schema where
`orders` references `users`; the parsed edges form a DAG ranked by
`users ↦ 0`, `orders ↦ 1`. -/
theorem sort_tables_topological_witness :
    (sort_tables_by_dependencies
          [("orders", ["users"]), ("users", [])]).Perm
        ([("orders", ["users"]), ("users", [])].map Prod.fst)
      ∧ TopoOut
          (lookupDeps (buildDependencies
            [("orders", ["users"]), ("users", [])]))
          (sort_tables_by_dependencies
            [("orders", ["users"]), ("users", [])]) :=
  ⟨(sort_tables_topological [("orders", ["users"]), ("users", [])]
      (by decide)).1,
    (sort_tables_topological [("orders", ["users"]), ("users", [])]
      (by decide)).2
      (fun nm => if nm = "users" then 0 else 1) (by decide)⟩

end D1Sync
